import Mathlib

/-!
Verification of the similarity/scoring engine of the toastyMills repository.

The engine lives in `src/engine/similarityEngine.js`; an unnamed duplicate of
the same module (an older copy without defensive normalization) is embedded
under the namespace `P7`.  JavaScript strings are modeled as Lean `String`s;
JS `String(x).trim().toLowerCase()` is modeled by the structural functions
`jsTrim` / `jsToLower` below (ASCII case folding, ASCII whitespace — all data
handled by the engine is ASCII).  JS objects used as string-keyed maps are
modeled as insertion-ordered association lists, and JS `Set`s as duplicate-free
insertion-ordered lists, which reproduces the enumeration order the engine
relies on.  JS numbers are modeled as `Int` (all arithmetic in the engine is
exact small-integer arithmetic).  A JS function that can throw is modeled with
an `Option` result (`none` = throw).
-/

namespace ToastyMills

/-- ASCII whitespace, as trimmed by `String.prototype.trim`. -/
def isWsChar (c : Char) : Bool :=
  c == ' ' || c == '\t' || c == '\n' || c == '\r' || c == '\x0b' || c == '\x0c'

/-- Model of `String.prototype.trim` (drop leading and trailing whitespace). -/
def jsTrim (s : String) : String :=
  ⟨((s.data.dropWhile isWsChar).reverse.dropWhile isWsChar).reverse⟩

/-- Model of `String.prototype.toLowerCase` (ASCII case folding). -/
def jsToLower (s : String) : String :=
  ⟨s.data.map Char.toLower⟩

/-- `String(x || "").trim().toLowerCase()`, the normalization the engine
applies to every word before comparing or storing it. -/
def norm (s : String) : String := jsToLower (jsTrim s)

/-- Model of `String.prototype.split(" ")` (split on the single space
character; an empty string yields `[""]`, adjacent separators yield empty
fields). -/
def splitSpaceAux : List Char → List Char → List String
  | [], acc => [⟨acc.reverse⟩]
  | c :: rest, acc =>
    if c = ' ' then ⟨acc.reverse⟩ :: splitSpaceAux rest []
    else splitSpaceAux rest (c :: acc)

def jsSplitSpace (s : String) : List String := splitSpaceAux s.data []

/-- A dictionary term record (`{ word, definition, category, synonyms,
antonyms }`). -/
structure Term where
  word : String
  definition : String
  category : String
  synonyms : List String
  antonyms : List String
deriving DecidableEq, Repr

/-- The thesaurus graph: a JS object mapping a word to a `Set` of neighbor
words, modeled as an insertion-ordered association list with duplicate-free
neighbor lists. -/
abbrev Graph := List (String × List String)

/-- First-match lookup of a key, the meaning of `graph[word]`. -/
def lookupNbrs (g : Graph) (w : String) : Option (List String) :=
  match g with
  | [] => none
  | (k, v) :: rest => if k = w then some v else lookupNbrs rest w

/-- `if (!graph[w]) graph[w] = new Set()`: create the key (at the end, in
insertion order) if it is absent. -/
def ensureNode (g : Graph) (w : String) : Graph :=
  if (lookupNbrs g w).isSome then g else g ++ [(w, [])]

/-- `Set.prototype.add`: append if not already present. -/
def addNeighbor (ns : List String) (n : String) : List String :=
  if n ∈ ns then ns else ns ++ [n]

/-- `graph[w].add(n)`: add `n` to the neighbor set stored under `w` (no-op on
keys other than `w`). -/
def addNbrTo : Graph → String → String → Graph
  | [], _, _ => []
  | (k, v) :: rest, w, n =>
    if k = w then (k, addNeighbor v n) :: addNbrTo rest w n
    else (k, v) :: addNbrTo rest w n

/-- Processing of one synonym string inside `buildThesaurusGraph`'s inner
loop: skip blank synonyms, otherwise add the edge in both directions. -/
def addSyn (word : String) (g : Graph) (syn : String) : Graph :=
  let synWord := norm syn
  if synWord = "" then g
  else addNbrTo (ensureNode (addNbrTo g word synWord) synWord) synWord word

/-- Processing of one term inside `buildThesaurusGraph`'s outer loop. -/
def addTermEdges (g : Graph) (term : Term) : Graph :=
  let word := norm term.word
  if word = "" then g
  else term.synonyms.foldl (addSyn word) (ensureNode g word)

/-- `buildThesaurusGraph(terms)` from `src/engine/similarityEngine.js`.
The final `Set`-to-array conversion preserves both key order and element
order, so it is the identity on this model. -/
def buildThesaurusGraph (terms : List Term) : Graph :=
  terms.foldl addTermEdges []

/-- One entry of `findSimilarities`' result: `{ term, connection, strength }`. -/
structure SimResult where
  term : Term
  connection : String
  strength : Int
deriving DecidableEq, Repr

/-- Stable insertion into a list sorted by descending strength: the inserted
element goes after all already-present elements of equal strength. -/
def insertByStrength (x : SimResult) : List SimResult → List SimResult
  | [] => [x]
  | y :: ys => if y.strength < x.strength then x :: y :: ys else y :: insertByStrength x ys

/-- `results.sort((a, b) => b.strength - a.strength)`: a stable descending
sort by strength (ECMAScript sorts are stable, and a stable sort under a
consistent comparator has a unique result, so insertion sort models it
exactly). -/
def sortResults (l : List SimResult) : List SimResult :=
  l.foldl (fun acc x => insertByStrength x acc) []

/-- The body of `findSimilarities`' `terms.forEach` loop for one candidate
term: at most one result is pushed per term, so the loop is a `filterMap`. -/
def simResultFor (lowerWord : String) (sourceTerm : Option Term)
    (sourceSyns : List String) (term : Term) : Option SimResult :=
  let termWord := norm term.word
  if termWord = "" then none
  else if termWord = lowerWord then none
  else
    let lowerSynonyms := term.synonyms.map norm
    let lowerAntonyms := term.antonyms.map norm
    if lowerWord ∈ lowerSynonyms then some ⟨term, "synonym", 90⟩
    else if lowerWord ∈ lowerAntonyms then some ⟨term, "antonym", 40⟩
    else
      match sourceTerm with
      | none => none
      | some st =>
        let sharedSyns := sourceSyns.filter (fun s => s ∈ lowerSynonyms)
        if sharedSyns.length > 0 then
          some ⟨term, "shared synonym: " ++ sharedSyns.headD "",
                60 + min ((sharedSyns.length : Int) * 5) 20⟩
        else if term.category = st.category then some ⟨term, "same category", 30⟩
        else none

/-- `findSimilarities(word, terms)` from `src/engine/similarityEngine.js`. -/
def findSimilarities (word : String) (terms : List Term) : List SimResult :=
  let lowerWord := norm word
  let sourceTerm := terms.find? (fun t => norm t.word == lowerWord)
  let sourceSyns := (sourceTerm.map (fun st => st.synonyms.map norm)).getD []
  if lowerWord = "" then []
  else sortResults (terms.filterMap (simResultFor lowerWord sourceTerm sourceSyns))

/-- `graph[current] || []`. -/
def nbrs (g : Graph) (w : String) : List String := (lookupNbrs g w).getD []

/-- The `for (const neighbor of neighbors)` loop of `getSimilarityPath`:
returns early with the completed path when the target is seen, otherwise
marks unvisited neighbors and enqueues their extended paths. -/
def scanStep (b : String) (path : List String) :
    List String → List String → List (List String) →
    Option (List String) × List String × List (List String)
  | [], visited, queue => (none, visited, queue)
  | n :: rest, visited, queue =>
    if n = b then (some (path ++ [b]), visited, queue)
    else if n ∈ visited then scanStep b path rest visited queue
    else scanStep b path rest (visited ++ [n]) (queue ++ [path ++ [n]])

/-- The `while (queue.length > 0)` loop of `getSimilarityPath`.  The loop
always terminates because each iteration pops one queued path and at most one
path is ever enqueued per distinct word; `fuel` makes that bound explicit and
`graphFuel` below always supplies enough of it. -/
def bfsAux (g : Graph) (b : String) : Nat → List (List String) → List String → Option (List String)
  | 0, _, _ => none
  | _ + 1, [], _ => none
  | fuel + 1, path :: rest, visited =>
    match scanStep b path (nbrs g (path.getLastD "")) visited rest with
    | (some p, _, _) => some p
    | (none, v, q) => bfsAux g b fuel q v

/-- An upper bound on the number of loop iterations: `1` initial enqueue plus
at most one enqueue per neighbor-list entry of the graph. -/
def graphFuel (g : Graph) : Nat :=
  1 + g.foldl (fun acc p => acc + p.2.length) 0

/-- `getSimilarityPath(wordA, wordB, graph)` from
`src/engine/similarityEngine.js`: BFS shortest path in the thesaurus graph. -/
def getSimilarityPath (wordA wordB : String) (graph : Graph) : Option (List String) :=
  let a := norm wordA
  let b := norm wordB
  if a = "" ∨ b = "" then none
  else if a = b then some [a]
  else if (lookupNbrs graph a).isNone ∨ (lookupNbrs graph b).isNone then none
  else bfsAux graph b (graphFuel graph) [[a]] [a]

/-- One element of a guess result's `connections` array. -/
structure Connection where
  type : String
  words : List String
deriving DecidableEq, Repr

/-- `{ score, feedback, connections }`. -/
structure GuessResult where
  score : Int
  feedback : String
  connections : List Connection
deriving DecidableEq, Repr

/-- The feedback-threshold ladder at the end of `scoreGuess`. -/
def feedbackFor (score : Int) : String :=
  if score ≥ 80 then "Very close! Strong connection found."
  else if score ≥ 60 then "Good guess! Related through shared concepts."
  else if score ≥ 40 then "Somewhat related — keep trying!"
  else if score ≥ 20 then "Loosely connected. Think more closely."
  else "No clear connection found. Try a synonym or related concept."

/-- Steps 3–4 of `scoreGuess`: the first applicable direct-relation rule,
giving the pre-path score and connection list. -/
def baseScore (guess target : String) (targetTerm : Term) (guessTerm : Option Term) :
    Int × List Connection :=
  let targetSyns := targetTerm.synonyms.map norm
  let targetAnts := targetTerm.antonyms.map norm
  if guess ∈ targetSyns then (85, [⟨"synonym", [guess, target]⟩])
  else if guess ∈ targetAnts then (35, [⟨"antonym", [guess, target]⟩])
  else
    match guessTerm with
    | none => (0, [])
    | some gt =>
      let guessSyns := gt.synonyms.map norm
      let guessAnts := gt.antonyms.map norm
      if target ∈ guessSyns then (85, [⟨"synonym", [guess, target]⟩])
      else if target ∈ guessAnts then (35, [⟨"antonym", [guess, target]⟩])
      else
        let shared := targetSyns.filter (fun s => s ∈ guessSyns)
        if shared.length > 0 then
          (50 + min ((shared.length : Int) * 8) 25, [⟨"shared synonym", shared⟩])
        else if gt.category = targetTerm.category then
          (20, [⟨"same category", [gt.category]⟩])
        else (0, [])

/-- `scoreGuess(guessWord, targetWord, terms)` from
`src/engine/similarityEngine.js`. -/
def scoreGuess (guessWord targetWord : String) (terms : List Term) : GuessResult :=
  let guess := norm guessWord
  let target := norm targetWord
  if guess = target then
    ⟨100, "Exact match! You got it!", []⟩
  else
    match terms.find? (fun t => norm t.word == target) with
    | none => ⟨0, "Target word not found in dictionary.", []⟩
    | some targetTerm =>
      let guessTerm := terms.find? (fun t => norm t.word == guess)
      let base := baseScore guess target targetTerm guessTerm
      let graph := buildThesaurusGraph terms
      match getSimilarityPath guess target graph with
      | none => ⟨base.1, feedbackFor base.1, base.2⟩
      | some path =>
        let score := if base.1 = 0 then max 10 (70 - ((path.length : Int) - 2) * 15) else base.1
        ⟨score, feedbackFor score, base.2 ++ [⟨"path", path⟩]⟩

/-- `{ targetWord, hints, maxGuesses }`. -/
structure Challenge where
  targetWord : String
  hints : List String
  maxGuesses : Nat
deriving DecidableEq, Repr

/-- `generateChallenge(terms)` from `src/engine/similarityEngine.js`.
`Math.floor(Math.random() * terms.length)` is modeled by the explicit index
`idx` (a runtime draw satisfies `idx < terms.length` whenever `terms` is
non-empty, and is `0` on an empty list).  Reading `terms[idx]` out of range,
or `word[0]` of an empty word, yields `undefined` whose property access
throws a `TypeError`; both throws are modeled as `none`. -/
def generateChallenge (terms : List Term) (idx : Nat) : Option Challenge :=
  match terms.get? idx with
  | none => none
  | some target =>
    match target.word.data with
    | [] => none
    | c :: _ =>
      some { targetWord := target.word
           , hints :=
              [ "Category: " ++ target.category
              , "It has " ++ toString target.synonyms.length ++ " known synonyms"
              , "First letter: \"" ++ String.mk [c.toUpper] ++ "\""
              , "Definition hint: " ++
                  String.intercalate " " ((jsSplitSpace target.definition).take 5) ++ "..." ]
           , maxGuesses := 5 }

/-!
The unnamed duplicate of the engine (`src/unnamed/part_007`): the same module
without the defensive `String(x || "").trim()` normalizations, and with one
byte-level difference in the 40–59 feedback string (its em dash was
double-encoded into the three characters `â€”`).  Its BFS loop
is character-for-character identical to the main engine's, so `scanStep`,
`bfsAux` and `graphFuel` are shared.
-/
namespace P7

/-- `buildThesaurusGraph` of `part_007`, inner loop for one synonym: raw
strings, no blank filtering. -/
def addSyn (word : String) (g : Graph) (syn : String) : Graph :=
  addNbrTo (ensureNode (addNbrTo g word syn) syn) syn word

/-- `buildThesaurusGraph` of `part_007`, outer loop for one term. -/
def addTermEdges (g : Graph) (term : Term) : Graph :=
  term.synonyms.foldl (addSyn term.word) (ensureNode g term.word)

/-- `buildThesaurusGraph(terms)` from `src/unnamed/part_007`. -/
def buildThesaurusGraph (terms : List Term) : Graph :=
  terms.foldl addTermEdges []

/-- The `terms.forEach` body of `part_007`'s `findSimilarities` (the source
term lookup is written inside the loop there, so it takes `terms` and
re-derives it). -/
def simResultFor (lowerWord : String) (terms : List Term) (term : Term) : Option SimResult :=
  if term.word = lowerWord then none
  else
    let lowerSynonyms := term.synonyms.map jsToLower
    let lowerAntonyms := term.antonyms.map jsToLower
    if lowerWord ∈ lowerSynonyms then some ⟨term, "synonym", 90⟩
    else if lowerWord ∈ lowerAntonyms then some ⟨term, "antonym", 40⟩
    else
      match terms.find? (fun t => t.word == lowerWord) with
      | none => none
      | some st =>
        let sourceSyns := st.synonyms.map jsToLower
        let sharedSyns := sourceSyns.filter (fun s => s ∈ lowerSynonyms)
        if sharedSyns.length > 0 then
          some ⟨term, "shared synonym: " ++ sharedSyns.headD "",
                60 + min ((sharedSyns.length : Int) * 5) 20⟩
        else if term.category = st.category then some ⟨term, "same category", 30⟩
        else none

/-- `findSimilarities(word, terms)` from `src/unnamed/part_007`. -/
def findSimilarities (word : String) (terms : List Term) : List SimResult :=
  let lowerWord := jsToLower word
  sortResults (terms.filterMap (simResultFor lowerWord terms))

/-- `getSimilarityPath(wordA, wordB, graph)` from `src/unnamed/part_007`:
no normalization and no empty-string guard, otherwise the same BFS. -/
def getSimilarityPath (wordA wordB : String) (graph : Graph) : Option (List String) :=
  if wordA = wordB then some [wordA]
  else if (lookupNbrs graph wordA).isNone ∨ (lookupNbrs graph wordB).isNone then none
  else bfsAux graph wordB (graphFuel graph) [[wordA]] [wordA]

/-- `part_007`'s feedback ladder; its only difference from the main engine's
is the mis-encoded em dash in the 40–59 message. -/
def feedbackFor (score : Int) : String :=
  if score ≥ 80 then "Very close! Strong connection found."
  else if score ≥ 60 then "Good guess! Related through shared concepts."
  else if score ≥ 40 then "Somewhat related â€” keep trying!"
  else if score ≥ 20 then "Loosely connected. Think more closely."
  else "No clear connection found. Try a synonym or related concept."

/-- Steps 3–4 of `part_007`'s `scoreGuess` (raw synonym/antonym strings are
lower-cased but never trimmed). -/
def baseScore (guess target : String) (targetTerm : Term) (guessTerm : Option Term) :
    Int × List Connection :=
  let targetSyns := targetTerm.synonyms.map jsToLower
  let targetAnts := targetTerm.antonyms.map jsToLower
  if guess ∈ targetSyns then (85, [⟨"synonym", [guess, target]⟩])
  else if guess ∈ targetAnts then (35, [⟨"antonym", [guess, target]⟩])
  else
    match guessTerm with
    | none => (0, [])
    | some gt =>
      let guessSyns := gt.synonyms.map jsToLower
      let guessAnts := gt.antonyms.map jsToLower
      if target ∈ guessSyns then (85, [⟨"synonym", [guess, target]⟩])
      else if target ∈ guessAnts then (35, [⟨"antonym", [guess, target]⟩])
      else
        let shared := targetSyns.filter (fun s => s ∈ guessSyns)
        if shared.length > 0 then
          (50 + min ((shared.length : Int) * 8) 25, [⟨"shared synonym", shared⟩])
        else if gt.category = targetTerm.category then
          (20, [⟨"same category", [gt.category]⟩])
        else (0, [])

/-- `scoreGuess(guessWord, targetWord, terms)` from `src/unnamed/part_007`
(note `toLowerCase().trim()`, in that order, and raw-word term lookups). -/
def scoreGuess (guessWord targetWord : String) (terms : List Term) : GuessResult :=
  let guess := jsTrim (jsToLower guessWord)
  let target := jsTrim (jsToLower targetWord)
  if guess = target then
    ⟨100, "Exact match! You got it!", []⟩
  else
    match terms.find? (fun t => t.word == target) with
    | none => ⟨0, "Target word not found in dictionary.", []⟩
    | some targetTerm =>
      let guessTerm := terms.find? (fun t => t.word == guess)
      let base := baseScore guess target targetTerm guessTerm
      let graph := buildThesaurusGraph terms
      match getSimilarityPath guess target graph with
      | none => ⟨base.1, feedbackFor base.1, base.2⟩
      | some path =>
        let score := if base.1 = 0 then max 10 (70 - ((path.length : Int) - 2) * 15) else base.1
        ⟨score, feedbackFor score, base.2 ++ [⟨"path", path⟩]⟩

end P7

/-! Specification-side notions used to state and prove the claims. -/

/-- Symmetry of a graph's neighbor relation. -/
def SymG (g : Graph) : Prop :=
  ∀ x y ns, lookupNbrs g x = some ns → y ∈ ns → ∃ ms, lookupNbrs g y = some ms ∧ x ∈ ms

/-- Adjacency in a graph, exactly as the BFS reads it: `y` occurs in
`graph[x] || []`. -/
def adjacentIn (g : Graph) (x y : String) : Prop := y ∈ nbrs g x

/-- A walk through the graph from `x` to `y`: a non-empty list of words
starting at `x`, ending at `y`, each consecutive pair adjacent. -/
def WalkFromTo (g : Graph) (x y : String) (p : List String) : Prop :=
  p.head? = some x ∧ p.getLast? = some y ∧ List.Chain' (adjacentIn g) p

/-- Existence of a walk from `a` to `y` with exactly `n` words. -/
def ReachN (g : Graph) (a y : String) (n : Nat) : Prop :=
  ∃ p, WalkFromTo g a y p ∧ p.length = n

/-- The per-queued-path part of the BFS loop invariant. -/
structure QInv (g : Graph) (a b : String) (V : List String) (q : List String) : Prop where
  walk : WalkFromTo g a (q.getLastD "") q
  lastMem : q.getLastD "" ∈ V
  notB : b ∉ q
  minimal : ∀ r, WalkFromTo g a (q.getLastD "") r → q.length ≤ r.length

/-- The BFS loop invariant, at the top of the `while` loop. -/
structure BfsInv (g : Graph) (a b : String) (Q : List (List String)) (V : List String) : Prop where
  qinv : ∀ q ∈ Q, QInv g a b V q
  sorted : Q.Pairwise (fun p q => p.length ≤ q.length)
  bound : ∀ p, Q.head? = some p → ∀ q ∈ Q, q.length ≤ p.length + 1
  vNotB : ∀ x ∈ V, x ≠ b
  complete : ∀ p, Q.head? = some p → ∀ y n, ReachN g a y n → n ≤ p.length → y = b ∨ y ∈ V
  distB : ∀ p, Q.head? = some p → ∀ n, ReachN g a b n → p.length + 1 ≤ n
  expand : ∀ z ∈ V, (∃ q ∈ Q, q.getLastD "" = z) ∨ (∀ w ∈ nbrs g z, w ∈ V ∧ w ≠ b)

/-- The invariant of the inner neighbor scan: the popped path `P` is being
expanded, `ns` is the still-unprocessed suffix of its neighbor list, and `Q`
is the remaining queue extended with the paths pushed so far. -/
structure ScanInv (g : Graph) (a b : String) (P : List String) (ns : List String)
    (V : List String) (Q : List (List String)) : Prop where
  pwalk : WalkFromTo g a (P.getLastD "") P
  pNotB : b ∉ P
  pMin : ∀ r, WalkFromTo g a (P.getLastD "") r → P.length ≤ r.length
  qinv : ∀ q ∈ Q, QInv g a b V q
  sorted : Q.Pairwise (fun p q => p.length ≤ q.length)
  lenLB : ∀ q ∈ Q, P.length ≤ q.length
  lenUB : ∀ q ∈ Q, q.length ≤ P.length + 1
  vNotB : ∀ x ∈ V, x ≠ b
  complete : ∀ y n, ReachN g a y n → n ≤ P.length → y = b ∨ y ∈ V
  distB : ∀ n, ReachN g a b n → P.length + 1 ≤ n
  expand : ∀ z ∈ V,
    (∃ q ∈ Q, q.getLastD "" = z) ∨ (∀ w ∈ nbrs g z, w ∈ V ∧ w ≠ b) ∨ z = P.getLastD ""
  nsSuffix : ∃ D, nbrs g (P.getLastD "") = D ++ ns ∧ ∀ w ∈ D, w ∈ V ∧ w ≠ b

/-- A string left unchanged by the engine's normalization: non-empty,
already trimmed, already lower-case. -/
abbrev IsNorm (s : String) : Prop := jsTrim s = s ∧ jsToLower s = s ∧ s ≠ ""

/-- A term all of whose word, synonym and antonym strings are normalized. -/
abbrev TermNormed (t : Term) : Prop :=
  IsNorm t.word ∧ (∀ s ∈ t.synonyms, IsNorm s) ∧ (∀ s ∈ t.antonyms, IsNorm s)

/-- The spec's path-scoring scenario term list:
`[{word:"a",synonyms:["b"]},{word:"b",synonyms:["a","c"]},{word:"c",synonyms:["b"]}]`
with blank categories/definitions and empty antonym lists. -/
def abcTerms : List Term :=
  [⟨"a", "", "", ["b"], []⟩, ⟨"b", "", "", ["a", "c"], []⟩, ⟨"c", "", "", ["b"], []⟩]

/-- The spec's hand-built BFS example graph `{a:[b], b:[a,c], c:[b]}`. -/
def abcGraph : Graph := [("a", ["b"]), ("b", ["a", "c"]), ("c", ["b"])]

/-- A small term whose record exercises every challenge hint. -/
def joyTerm : Term :=
  ⟨"joy", "a feeling of great pleasure and happiness", "emotion",
   ["happiness", "delight"], ["sorrow"]⟩

/-! ## Generic list helper lemmas -/

theorem foldl_congr_mem {α β : Type} (l : List α) (f g : β → α → β) (b : β)
    (h : ∀ a ∈ l, ∀ x, f x a = g x a) : l.foldl f b = l.foldl g b := by
  induction l generalizing b with
  | nil => rfl
  | cons a t ih =>
    simp only [List.foldl_cons]
    rw [h a (by simp)]
    exact ih _ fun a' ha' x => h a' (by simp [ha']) x

theorem find?_congr_mem {α : Type} (l : List α) (p q : α → Bool)
    (h : ∀ a ∈ l, p a = q a) : l.find? p = l.find? q := by
  induction l with
  | nil => rfl
  | cons a t ih =>
    rw [List.find?_cons, List.find?_cons, h a (by simp)]
    cases q a
    · exact ih fun a' ha' => h a' (by simp [ha'])
    · rfl

theorem filterMap_congr_mem {α β : Type} (l : List α) (f g : α → Option β)
    (h : ∀ a ∈ l, f a = g a) : l.filterMap f = l.filterMap g := by
  induction l with
  | nil => rfl
  | cons a t ih =>
    rw [List.filterMap_cons, List.filterMap_cons, h a (by simp),
        ih fun a' ha' => h a' (by simp [ha'])]

/-! ## Graph structure lemmas (claim C2) -/

theorem mem_addNeighbor (ns : List String) (n y : String) :
    y ∈ addNeighbor ns n ↔ y ∈ ns ∨ y = n := by
  unfold addNeighbor
  split
  · rename_i h
    constructor
    · exact fun hy => Or.inl hy
    · rintro (hy | rfl)
      · exact hy
      · exact h
  · simp

theorem lookupNbrs_append_single (g : Graph) (w k : String) (l : List String) :
    lookupNbrs (g ++ [(w, l)]) k =
      match lookupNbrs g k with
      | some v => some v
      | none => if w = k then some l else none := by
  induction g with
  | nil => simp [lookupNbrs]
  | cons p t ih =>
    obtain ⟨pk, pv⟩ := p
    by_cases h : pk = k <;> simp [lookupNbrs, h, ih]

theorem lookupNbrs_addNbrTo (g : Graph) (w n k : String) :
    lookupNbrs (addNbrTo g w n) k =
      if k = w then (lookupNbrs g k).map (fun ns => addNeighbor ns n)
      else lookupNbrs g k := by
  induction g with
  | nil => by_cases h : k = w <;> simp [addNbrTo, lookupNbrs, h]
  | cons p t ih =>
    obtain ⟨pk, pv⟩ := p
    by_cases h1 : pk = w
    · subst h1
      by_cases h2 : pk = k
      · subst h2
        simp [addNbrTo, lookupNbrs]
      · have h2' : ¬k = pk := fun hh => h2 hh.symm
        simp [addNbrTo, lookupNbrs, h2, h2', ih]
    · by_cases h2 : pk = k
      · subst h2
        have h1' : ¬pk = w := h1
        simp [addNbrTo, lookupNbrs, h1', ih]
      · simp [addNbrTo, lookupNbrs, h1, h2, ih]

theorem lookupNbrs_ensureNode (g : Graph) (w k : String) :
    lookupNbrs (ensureNode g w) k =
      if k = w then some ((lookupNbrs g w).getD []) else lookupNbrs g k := by
  unfold ensureNode
  by_cases h : (lookupNbrs g w).isSome
  · rw [if_pos h]
    obtain ⟨v, hv⟩ := Option.isSome_iff_exists.mp h
    by_cases hk : k = w
    · subst hk; simp [hv]
    · simp [hk]
  · rw [if_neg h, lookupNbrs_append_single]
    have hnone : lookupNbrs g w = none := Option.not_isSome_iff_eq_none.mp h
    have hk2 : ∀ hh : ¬k = w, ¬w = k := fun hh h2 => hh h2.symm
    by_cases hk : k = w
    · subst hk; simp [hnone]
    · cases hlk : lookupNbrs g k <;> simp [hlk, hk, hk2 hk]

theorem symG_edgeAdd (g : Graph) (w s : String)
    (hsym : SymG g) (hw : (lookupNbrs g w).isSome) :
    SymG (addNbrTo (ensureNode (addNbrTo g w s) s) s w) ∧
      (lookupNbrs (addNbrTo (ensureNode (addNbrTo g w s) s) s w) w).isSome := by
  obtain ⟨ns0, hns0⟩ := Option.isSome_iff_exists.mp hw
  have hgetd : ∀ x v, lookupNbrs g x = some v → (lookupNbrs g x).getD [] = v := by
    intro x v hv
    rw [hv]
    rfl
  have hmemD : ∀ x y, y ∈ (lookupNbrs g x).getD [] →
      lookupNbrs g x = some ((lookupNbrs g x).getD []) := by
    intro x y hy
    cases hls : lookupNbrs g x with
    | none => rw [hls] at hy; simp at hy
    | some v => rfl
  by_cases hsw : s = w
  · rw [hsw]
    have hlook : ∀ k, lookupNbrs (addNbrTo (ensureNode (addNbrTo g w w) w) w w) k =
        if k = w then some (addNeighbor (addNeighbor ns0 w) w) else lookupNbrs g k := by
      intro k
      simp only [lookupNbrs_addNbrTo, lookupNbrs_ensureNode]
      by_cases hk : k = w <;> simp [hk, hns0]
    have movEdge : ∀ y ms x, lookupNbrs g y = some ms → x ∈ ms →
        ∃ ms2, lookupNbrs (addNbrTo (ensureNode (addNbrTo g w w) w) w w) y = some ms2 ∧
          x ∈ ms2 := by
      intro y ms x hms hxm
      rw [hlook y]
      by_cases hys : y = w
      · rw [if_pos hys]
        rw [hys] at hms
        have hmseq : ms = ns0 := Option.some.inj (hms.symm.trans hns0)
        exact ⟨_, rfl, (mem_addNeighbor _ _ _).mpr
          (Or.inl ((mem_addNeighbor _ _ _).mpr (Or.inl (by rw [← hmseq]; exact hxm))))⟩
      · rw [if_neg hys]
        exact ⟨ms, hms, hxm⟩
    refine ⟨?_, by rw [hlook, if_pos rfl]; rfl⟩
    intro x y ns hx hy
    rw [hlook x] at hx
    by_cases hxw : x = w
    · rw [if_pos hxw] at hx
      injection hx with hx
      subst hx
      rcases (mem_addNeighbor _ _ _).mp hy with hy2 | hyw2
      · rcases (mem_addNeighbor _ _ _).mp hy2 with hy0 | hyw2
        · obtain ⟨ms, hms, hxm⟩ := hsym w y ns0 hns0 hy0
          obtain ⟨ms2, hm2, hx2⟩ := movEdge y ms w hms hxm
          exact ⟨ms2, hm2, by rw [hxw]; exact hx2⟩
        · rw [hlook y, hyw2, if_pos rfl]
          exact ⟨_, rfl, (mem_addNeighbor _ _ _).mpr (Or.inr hxw)⟩
      · rw [hlook y, hyw2, if_pos rfl]
        exact ⟨_, rfl, (mem_addNeighbor _ _ _).mpr (Or.inr hxw)⟩
    · rw [if_neg hxw] at hx
      obtain ⟨ms, hms, hxm⟩ := hsym x y ns hx hy
      exact movEdge y ms x hms hxm
  · have hws : ¬w = s := fun h2 => hsw h2.symm
    have hlook : ∀ k, lookupNbrs (addNbrTo (ensureNode (addNbrTo g w s) s) s w) k =
        if k = s then some (addNeighbor ((lookupNbrs g s).getD []) w)
        else if k = w then some (addNeighbor ns0 s)
        else lookupNbrs g k := by
      intro k
      simp only [lookupNbrs_addNbrTo, lookupNbrs_ensureNode]
      by_cases hk : k = s
      · simp [hk, hsw, hws, hns0]
      · by_cases hk2 : k = w <;> simp [hk, hk2, hsw, hws, hns0]
    have movEdge : ∀ y ms x, lookupNbrs g y = some ms → x ∈ ms →
        ∃ ms2, lookupNbrs (addNbrTo (ensureNode (addNbrTo g w s) s) s w) y = some ms2 ∧
          x ∈ ms2 := by
      intro y ms x hms hxm
      rw [hlook y]
      by_cases hys : y = s
      · rw [if_pos hys]
        rw [hys] at hms
        rw [hgetd s ms hms]
        exact ⟨_, rfl, (mem_addNeighbor _ _ _).mpr (Or.inl hxm)⟩
      · rw [if_neg hys]
        by_cases hyw : y = w
        · rw [if_pos hyw]
          rw [hyw] at hms
          have hmseq : ms = ns0 := Option.some.inj (hms.symm.trans hns0)
          exact ⟨_, rfl, (mem_addNeighbor _ _ _).mpr (Or.inl (by rw [← hmseq]; exact hxm))⟩
        · rw [if_neg hyw]
          exact ⟨ms, hms, hxm⟩
    refine ⟨?_, by rw [hlook, if_neg hws, if_pos rfl]; rfl⟩
    intro x y ns hx hy
    rw [hlook x] at hx
    by_cases hxs : x = s
    · rw [if_pos hxs] at hx
      injection hx with hx
      subst hx
      rcases (mem_addNeighbor _ _ _).mp hy with hy2 | hyw2
      · have hgs := hmemD s y hy2
        obtain ⟨ms, hms, hxm⟩ := hsym s y _ hgs hy2
        obtain ⟨ms2, hm2, hx2⟩ := movEdge y ms s hms hxm
        exact ⟨ms2, hm2, by rw [hxs]; exact hx2⟩
      · rw [hlook y, hyw2, if_neg hws, if_pos rfl]
        exact ⟨_, rfl, (mem_addNeighbor _ _ _).mpr (Or.inr hxs)⟩
    · rw [if_neg hxs] at hx
      by_cases hxw : x = w
      · rw [if_pos hxw] at hx
        injection hx with hx
        subst hx
        rcases (mem_addNeighbor _ _ _).mp hy with hy0 | hys2
        · obtain ⟨ms, hms, hxm⟩ := hsym w y ns0 hns0 hy0
          obtain ⟨ms2, hm2, hx2⟩ := movEdge y ms w hms hxm
          exact ⟨ms2, hm2, by rw [hxw]; exact hx2⟩
        · rw [hlook y, hys2, if_pos rfl]
          exact ⟨_, rfl, (mem_addNeighbor _ _ _).mpr (Or.inr hxw)⟩
      · rw [if_neg hxw] at hx
        obtain ⟨ms, hms, hxm⟩ := hsym x y ns hx hy
        exact movEdge y ms x hms hxm

theorem symG_addSyn (w : String) (g : Graph) (syn : String)
    (hsym : SymG g) (hw : (lookupNbrs g w).isSome) :
    SymG (addSyn w g syn) ∧ (lookupNbrs (addSyn w g syn) w).isSome := by
  unfold addSyn
  by_cases h : norm syn = ""
  · simpa [h] using ⟨hsym, hw⟩
  · simp only [if_neg h]
    exact symG_edgeAdd g w (norm syn) hsym hw

theorem symG_foldl_addSyn (w : String) (syns : List String) :
    ∀ g, SymG g → (lookupNbrs g w).isSome →
      SymG (syns.foldl (addSyn w) g) ∧ (lookupNbrs (syns.foldl (addSyn w) g) w).isSome := by
  induction syns with
  | nil => exact fun g hs hw => ⟨hs, hw⟩
  | cons a t ih =>
    intro g hs hw
    simp only [List.foldl_cons]
    obtain ⟨h1, h2⟩ := symG_addSyn w g a hs hw
    exact ih _ h1 h2

theorem symG_ensureNode (g : Graph) (w : String) (hsym : SymG g) : SymG (ensureNode g w) := by
  intro x y ns hx hy
  rw [lookupNbrs_ensureNode] at hx
  have hgx : lookupNbrs g x = some ns := by
    by_cases hxw : x = w
    · rw [if_pos hxw] at hx
      injection hx with hx
      cases hgw : lookupNbrs g w with
      | none =>
        rw [hgw] at hx
        simp at hx
        subst hx
        simp at hy
      | some v =>
        rw [hgw] at hx
        simp at hx
        rw [hxw, hgw, hx]
    · rwa [if_neg hxw] at hx
  obtain ⟨ms, hms, hxm⟩ := hsym x y ns hgx hy
  refine ⟨ms, ?_, hxm⟩
  rw [lookupNbrs_ensureNode]
  by_cases hyw : y = w
  · rw [if_pos hyw]
    rw [hyw] at hms
    rw [hms]
    rfl
  · rw [if_neg hyw]
    exact hms

theorem symG_addTermEdges (g : Graph) (t : Term) (hsym : SymG g) :
    SymG (addTermEdges g t) := by
  unfold addTermEdges
  by_cases h : norm t.word = ""
  · simpa [h] using hsym
  · simp only [if_neg h]
    have h1 : SymG (ensureNode g (norm t.word)) := symG_ensureNode g _ hsym
    have h2 : (lookupNbrs (ensureNode g (norm t.word)) (norm t.word)).isSome := by
      rw [lookupNbrs_ensureNode, if_pos rfl]
      rfl
    exact (symG_foldl_addSyn _ _ _ h1 h2).1

theorem symG_build (terms : List Term) : SymG (buildThesaurusGraph terms) := by
  unfold buildThesaurusGraph
  have hbase : SymG ([] : Graph) := by
    intro x y ns hx
    simp [lookupNbrs] at hx
  have hstep : ∀ ts : List Term, ∀ g, SymG g → SymG (ts.foldl addTermEdges g) := by
    intro ts
    induction ts with
    | nil => exact fun g hs => hs
    | cons t ts2 ih => exact fun g hs => ih _ (symG_addTermEdges g t hs)
  exact hstep terms [] hbase

/-! ## Claim theorems (easy group) -/

/-- C1 (counterexample): on the spec's path-scoring term list, a and c share
the synonym b, so the shared-synonym rule fires and `scoreGuess("a","c")`
scores 58, not the claimed distance-floor 55. -/
theorem claim1_counterexample :
    (scoreGuess "a" "c" abcTerms).score ≠ 55 ∧ (scoreGuess "a" "c" abcTerms).score = 58 := by
  decide

/-- C1 (amended): on the term list
`[{word:"a",synonyms:["b"]},{word:"b",synonyms:["a","c"]},{word:"c",synonyms:["b"]}]`,
`scoreGuess("a","c",terms)` fires the shared-synonym rule on the shared
synonym b, giving score `50 + min(8*1, 25) = 58`, and still records the BFS
path `[a,b,c]` as a connection; the distance floor
`max(10, 70 - 15*(3-2)) = 55` is not applied because the score is already
non-zero. -/
theorem claim1_amended :
    scoreGuess "a" "c" abcTerms =
      ⟨58, "Somewhat related — keep trying!",
        [⟨"shared synonym", ["b"]⟩, ⟨"path", ["a", "b", "c"]⟩]⟩ := by
  decide

/-- C2: if building the thesaurus graph places `y` in `x`'s neighbor set, it
also places `x` in `y`'s neighbor set, for every term list — including when
`y` exists only as a synonym string with no term record of its own. -/
theorem claim2_graph_symmetry (terms : List Term) (x y : String) (ns : List String)
    (h1 : lookupNbrs (buildThesaurusGraph terms) x = some ns) (h2 : y ∈ ns) :
    ∃ ms, lookupNbrs (buildThesaurusGraph terms) y = some ms ∧ x ∈ ms :=
  symG_build terms x y ns h1 h2

/-- C2 witness: `bright` is only a synonym string (no term record), yet the
edge `lit → bright` is mirrored as `bright → lit`. -/
theorem claim2_witness :
    ∃ ms, lookupNbrs (buildThesaurusGraph [⟨"lit", "", "", ["bright"], []⟩]) "bright" =
        some ms ∧ "lit" ∈ ms :=
  claim2_graph_symmetry [⟨"lit", "", "", ["bright"], []⟩] "lit" "bright" ["bright"]
    (by decide) (by decide)

/-- C4: whenever guess and target normalize to the same string — even when
that word appears in no term — `scoreGuess` short-circuits to score 100 with
the fixed feedback and no connections. -/
theorem claim4_exact_match (guessWord targetWord : String) (terms : List Term)
    (h : norm guessWord = norm targetWord) :
    scoreGuess guessWord targetWord terms = ⟨100, "Exact match! You got it!", []⟩ := by
  unfold scoreGuess
  simp [h]

/-- C4 witness: `" A "` and `"a"` normalize equally and are absent from the
(empty) term list. -/
theorem claim4_witness :
    scoreGuess " A " "a" [] = ⟨100, "Exact match! You got it!", []⟩ :=
  claim4_exact_match " A " "a" [] (by decide)

/-- C5 (counterexample): for the non-empty word `"A"`, `findPath("A","A",{})`
returns the normalized path `["a"]`, not `["A"]` — the claim fails for words
that are not already trimmed and lower-case. -/
theorem claim5_counterexample :
    "A" ≠ "" ∧ getSimilarityPath "A" "A" [] ≠ some ["A"] ∧
      getSimilarityPath "A" "A" [] = some ["a"] := by
  decide

/-- C5 (amended): for every word `w` that normalization leaves unchanged
(non-empty, trimmed, lower-case) and every graph, `findPath(w, w, graph)`
returns the single-element path `[w]` even when `w` is not a node of the
graph; in general the returned element is the normalized word. -/
theorem claim5_identity_path (w : String) (g : Graph)
    (h1 : norm w = w) (h2 : w ≠ "") :
    getSimilarityPath w w g = some [w] := by
  unfold getSimilarityPath
  simp [h1, h2]

/-- C5 witness: an identity path for a word that is not a node of the empty
graph. -/
theorem claim5_witness : getSimilarityPath "hot" "hot" [] = some ["hot"] :=
  claim5_identity_path "hot" [] (by decide) (by decide)

/-- C6: when the normalized target differs from the normalized guess and
matches no term word (case-insensitively), `scoreGuess` returns the zero
score with the descriptive feedback sentinel and no connections (and, being
a total function, raises no error). -/
theorem claim6_target_not_found (guessWord targetWord : String) (terms : List Term)
    (h1 : norm guessWord ≠ norm targetWord)
    (h2 : ∀ t ∈ terms, norm t.word ≠ norm targetWord) :
    scoreGuess guessWord targetWord terms =
      ⟨0, "Target word not found in dictionary.", []⟩ := by
  unfold scoreGuess
  have hfind : terms.find? (fun t => norm t.word == norm targetWord) = none := by
    rw [List.find?_eq_none]
    intro t ht
    simpa using h2 t ht
  simp [h1, hfind]

/-- C6 witness: target `"y"` is not in the dictionary `[z]`. -/
theorem claim6_witness :
    scoreGuess "x" "y" [⟨"z", "", "", [], []⟩] =
      ⟨0, "Target word not found in dictionary.", []⟩ :=
  claim6_target_not_found "x" "y" [⟨"z", "", "", [], []⟩] (by decide) (by decide)

/-- C8: on an empty term list, `generateChallenge` fails (the out-of-range
read `terms[idx]` yields `undefined` and the immediate property access throws,
modeled as `none`) for every possible random index — in particular for the
index 0 that `Math.floor(Math.random() * 0)` actually produces — instead of
returning a `Challenge`. -/
theorem claim8_empty_terms : ∀ idx : Nat, generateChallenge [] idx = none := by
  intro idx
  rfl

/-- C7: on a non-empty term list whose words are non-empty, every possible
random draw produces a Challenge built from some term of the list, with
exactly the four hints in their fixed order, that term's word as target, and
a guess limit of 5. -/
theorem claim7_challenge_structure (terms : List Term) (idx : Nat)
    (hidx : idx < terms.length) (hwords : ∀ t ∈ terms, t.word ≠ "") :
    ∃ t ∈ terms, ∃ ch, generateChallenge terms idx = some ch ∧
      ch.targetWord = t.word ∧ ch.maxGuesses = 5 ∧ ch.hints.length = 4 ∧
      ∃ c rest, t.word.data = c :: rest ∧
        ch.hints =
          [ "Category: " ++ t.category
          , "It has " ++ toString t.synonyms.length ++ " known synonyms"
          , "First letter: \"" ++ String.mk [c.toUpper] ++ "\""
          , "Definition hint: " ++
              String.intercalate " " ((jsSplitSpace t.definition).take 5) ++ "..." ] := by
  obtain ⟨t, hget⟩ : ∃ t, terms.get? idx = some t := ⟨_, List.get?_eq_get hidx⟩
  have hmem : t ∈ terms := List.get?_mem hget
  have hdata : t.word.data ≠ [] := by
    intro hd
    exact hwords t hmem (by
      have hrepr : t.word = ⟨t.word.data⟩ := rfl
      rw [hd] at hrepr
      exact hrepr)
  cases hc : t.word.data with
  | nil => exact absurd hc hdata
  | cons c rest =>
    refine ⟨t, hmem,
      { targetWord := t.word
      , hints :=
          [ "Category: " ++ t.category
          , "It has " ++ toString t.synonyms.length ++ " known synonyms"
          , "First letter: \"" ++ String.mk [c.toUpper] ++ "\""
          , "Definition hint: " ++
              String.intercalate " " ((jsSplitSpace t.definition).take 5) ++ "..." ]
      , maxGuesses := 5 }, ?_, rfl, rfl, rfl, c, rest, hc, rfl⟩
    unfold generateChallenge
    rw [hget]
    simp [hc]

/-- C7 witness: the single-term list around `joyTerm` with the draw 0. -/
theorem claim7_witness :
    ∃ t ∈ [joyTerm], ∃ ch, generateChallenge [joyTerm] 0 = some ch ∧
      ch.targetWord = t.word ∧ ch.maxGuesses = 5 ∧ ch.hints.length = 4 ∧
      ∃ c rest, t.word.data = c :: rest ∧
        ch.hints =
          [ "Category: " ++ t.category
          , "It has " ++ toString t.synonyms.length ++ " known synonyms"
          , "First letter: \"" ++ String.mk [c.toUpper] ++ "\""
          , "Definition hint: " ++
              String.intercalate " " ((jsSplitSpace t.definition).take 5) ++ "..." ] :=
  claim7_challenge_structure [joyTerm] 0 (by decide) (by decide)

theorem mem_insertByStrength (x z : SimResult) (l : List SimResult) :
    z ∈ insertByStrength x l ↔ z = x ∨ z ∈ l := by
  induction l with
  | nil => simp [insertByStrength]
  | cons y ys ih =>
    unfold insertByStrength
    by_cases h : y.strength < x.strength
    · simp [h]
    · simp only [if_neg h, List.mem_cons, ih]
      tauto

theorem mem_sortResults (l : List SimResult) (z : SimResult) :
    z ∈ sortResults l ↔ z ∈ l := by
  unfold sortResults
  suffices h : ∀ acc, (z ∈ l.foldl (fun acc x => insertByStrength x acc) acc ↔
      z ∈ acc ∨ z ∈ l) by
    simpa using h []
  induction l with
  | nil => simp
  | cons a t ih =>
    intro acc
    simp only [List.foldl_cons]
    rw [ih]
    simp only [mem_insertByStrength, List.mem_cons]
    tauto

/-- C9: when the query word is a known term and a candidate term — not
already matched as a direct synonym or antonym of the query — shares at
least one synonym with the query term, `findSimilarities` reports it with
strength exactly `60 + min(5*shared, 20)`, hence between 65 and 80 (a cap of
80, distinct from the 75 cap of the analogous rule in `scoreGuess`). -/
theorem claim9_shared_synonym_strength (word : String) (terms : List Term) (t st : Term)
    (h0 : norm word ≠ "")
    (hsrc : terms.find? (fun tt => norm tt.word == norm word) = some st)
    (ht : t ∈ terms)
    (hw1 : norm t.word ≠ "")
    (hw2 : norm t.word ≠ norm word)
    (hsyn : norm word ∉ t.synonyms.map norm)
    (hant : norm word ∉ t.antonyms.map norm)
    (hshared : (st.synonyms.map norm).filter (fun s => s ∈ t.synonyms.map norm) ≠ []) :
    ∃ r ∈ findSimilarities word terms, r.term = t ∧
      r.strength = 60 + min
        ((((st.synonyms.map norm).filter
            (fun s => s ∈ t.synonyms.map norm)).length : Int) * 5) 20 ∧
      65 ≤ r.strength ∧ r.strength ≤ 80 := by
  have hlen : 0 < ((st.synonyms.map norm).filter
      (fun s => s ∈ t.synonyms.map norm)).length := List.length_pos.mpr hshared
  have hres : simResultFor (norm word) (some st) (st.synonyms.map norm) t =
      some ⟨t, "shared synonym: " ++
        (((st.synonyms.map norm).filter (fun s => s ∈ t.synonyms.map norm)).headD ""),
        60 + min ((((st.synonyms.map norm).filter
          (fun s => s ∈ t.synonyms.map norm)).length : Int) * 5) 20⟩ := by
    simp only [simResultFor]
    rw [if_neg hw1, if_neg hw2, if_neg hsyn, if_neg hant, if_pos hlen]
  have hfs : findSimilarities word terms =
      sortResults (terms.filterMap
        (simResultFor (norm word) (some st) (st.synonyms.map norm))) := by
    simp only [findSimilarities]
    rw [hsrc]
    simp [h0]
  refine ⟨⟨t, "shared synonym: " ++
      (((st.synonyms.map norm).filter (fun s => s ∈ t.synonyms.map norm)).headD ""),
      60 + min ((((st.synonyms.map norm).filter
        (fun s => s ∈ t.synonyms.map norm)).length : Int) * 5) 20⟩, ?_, rfl, rfl, ?_, ?_⟩
  · rw [hfs, mem_sortResults]
    exact List.mem_filterMap.mpr ⟨t, ht, hres⟩
  · have h1 : (1 : Int) ≤ (((st.synonyms.map norm).filter
        (fun s => s ∈ t.synonyms.map norm)).length : Int) := by exact_mod_cast hlen
    dsimp only
    omega
  · dsimp only
    omega

/-- C9 witness: in the abc list, the candidate term c shares the synonym b
with the query term a, giving strength 60 + min(5*1, 20) = 65. -/
theorem claim9_witness :
    ∃ r ∈ findSimilarities "a" abcTerms, r.term = (⟨"c", "", "", ["b"], []⟩ : Term) ∧
      r.strength = 65 ∧ 65 ≤ r.strength ∧ r.strength ≤ 80 := by
  obtain ⟨r, hmem, hterm, hstr, hlo, hhi⟩ :=
    claim9_shared_synonym_strength "a" abcTerms ⟨"c", "", "", ["b"], []⟩ ⟨"a", "", "", ["b"], []⟩
      (by decide) (by decide) (by decide) (by decide) (by decide) (by decide) (by decide)
      (by decide)
  refine ⟨r, hmem, hterm, ?_, hlo, hhi⟩
  rw [hstr]
  decide

/-! ## BFS walk lemmas (claim C3) -/

theorem head?_mem {α : Type} {l : List α} {x : α} (h : l.head? = some x) : x ∈ l := by
  cases l with
  | nil => simp at h
  | cons a t =>
    have hax : a = x := by simpa using h
    rw [← hax]
    exact List.mem_cons_self a t

theorem front_min {Q : List (List String)} {p : List String}
    (hs : Q.Pairwise (fun p2 q2 => p2.length ≤ q2.length)) (hp : Q.head? = some p) :
    ∀ q ∈ Q, p.length ≤ q.length := by
  cases Q with
  | nil => simp at hp
  | cons x t =>
    have hx : x = p := by simpa using hp
    subst hx
    intro q hq
    rcases List.mem_cons.mp hq with rfl | hq2
    · exact le_refl _
    · exact (List.pairwise_cons.mp hs).1 q hq2

theorem walk_ne_nil {g : Graph} {a y : String} {p : List String}
    (h : WalkFromTo g a y p) : p ≠ [] := by
  intro hp
  obtain ⟨h1, -, -⟩ := h
  rw [hp] at h1
  simp at h1

theorem walk_length_pos {g : Graph} {a y : String} {p : List String}
    (h : WalkFromTo g a y p) : 1 ≤ p.length := by
  have := walk_ne_nil h
  cases p with
  | nil => exact absurd rfl this
  | cons x t => simp

theorem walk_one {g : Graph} {a y : String} {p : List String}
    (h : WalkFromTo g a y p) (hl : p.length = 1) : y = a := by
  obtain ⟨h1, h2, -⟩ := h
  cases p with
  | nil => simp at hl
  | cons x t =>
    cases t with
    | nil =>
      have hxa : x = a := by simpa using h1
      have hxy : x = y := by simpa using h2
      rw [← hxa, ← hxy]
    | cons z t2 => simp at hl

theorem walk_snoc {g : Graph} {a u : String} {p : List String} (v : String)
    (h : WalkFromTo g a u p) (hadj : adjacentIn g u v) :
    WalkFromTo g a v (p ++ [v]) := by
  obtain ⟨h1, h2, h3⟩ := h
  refine ⟨?_, List.getLast?_concat p, ?_⟩
  · cases p with
    | nil => simp at h1
    | cons x t => simpa using h1
  · rw [List.chain'_append]
    refine ⟨h3, List.chain'_singleton v, ?_⟩
    intro x hx y hy
    rw [h2] at hx
    have hxu : x = u := (by simpa using hx : u = x).symm
    have hyv : y = v := (by simpa using hy : v = y).symm
    rw [hxu, hyv]
    exact hadj

theorem walk_unsnoc {g : Graph} {a y : String} {p : List String}
    (h : WalkFromTo g a y p) (hl : 2 ≤ p.length) :
    ∃ q z, p = q ++ [y] ∧ WalkFromTo g a z q ∧ adjacentIn g z y ∧
      p.length = q.length + 1 := by
  obtain ⟨h1, h2, h3⟩ := h
  rcases List.eq_nil_or_concat p with rfl | ⟨q, y2, hp⟩
  · simp at hl
  · rw [List.concat_eq_append] at hp
    subst hp
    rw [List.getLast?_concat] at h2
    have hy2 : y = y2 := (by simpa using h2 : y2 = y).symm
    subst hy2
    have hq : q ≠ [] := by
      intro hq0
      rw [hq0] at hl
      simp at hl
    obtain ⟨z, hz⟩ : ∃ z, q.getLast? = some z := by
      cases hql : q.getLast? with
      | none => exact absurd (List.getLast?_eq_none_iff.mp hql) hq
      | some z => exact ⟨z, rfl⟩
    rw [List.chain'_append] at h3
    obtain ⟨h3q, -, h3c⟩ := h3
    refine ⟨q, z, rfl, ⟨?_, hz, h3q⟩, ?_, by simp⟩
    · cases q with
      | nil => exact absurd rfl hq
      | cons x t => simpa using h1
    · refine h3c z ?_ y ?_
      · rw [hz]
        rfl
      · rfl

theorem reachN_pos {g : Graph} {a y : String} {n : Nat} (h : ReachN g a y n) : 1 ≤ n := by
  obtain ⟨p, hp, hl⟩ := h
  rw [← hl]
  exact walk_length_pos hp

theorem reachN_one {g : Graph} {a y : String} (h : ReachN g a y 1) : y = a := by
  obtain ⟨p, hp, hl⟩ := h
  exact walk_one hp hl

theorem getLastD_concat_str (l : List String) (x d : String) :
    (l ++ [x]).getLastD d = x := by
  simp

/-- Closing the neighbor scan of a popped path restores the main BFS loop
invariant: the popped path's endpoint is now fully expanded, and every word
at BFS level up to the new front is visited. -/
theorem scanInv_to_bfsInv (g : Graph) (a b : String) (P : List String)
    (V : List String) (Q : List (List String))
    (hinv : ScanInv g a b P [] V Q) : BfsInv g a b Q V := by
  obtain ⟨pwalk, pNotB, pMin, qinv, sorted, lenLB, lenUB, vNotB, complete, distB, expand,
    nsSuffix⟩ := hinv
  obtain ⟨D, hD, hDmem⟩ := nsSuffix
  rw [List.append_nil] at hD
  have uExpand : ∀ w2 ∈ nbrs g (P.getLastD ""), w2 ∈ V ∧ w2 ≠ b := by
    intro w2 hw2
    rw [hD] at hw2
    exact hDmem w2 hw2
  have expand2 : ∀ z ∈ V, (∃ q ∈ Q, q.getLastD "" = z) ∨
      (∀ w2 ∈ nbrs g z, w2 ∈ V ∧ w2 ≠ b) := by
    intro z hz
    rcases expand z hz with h | h | h
    · exact Or.inl h
    · exact Or.inr h
    · rw [h]
      exact Or.inr uExpand
  have key : ∀ p, Q.head? = some p → p.length = P.length + 1 →
      ∀ z, ReachN g a z P.length → z ≠ b → ∀ w2 ∈ nbrs g z, w2 ∈ V ∧ w2 ≠ b := by
    intro p hp hpl z hz hzb
    have hzV : z ∈ V := by
      rcases complete z P.length hz (le_refl _) with h | h
      · exact absurd h hzb
      · exact h
    rcases expand2 z hzV with ⟨q, hqQ, hqz⟩ | h
    · exfalso
      obtain ⟨q0, hq0w, hq0l⟩ := hz
      have h1 : q.length ≤ P.length := by
        have := (qinv q hqQ).minimal q0 (by rw [hqz]; exact hq0w)
        omega
      have h2 : p.length ≤ q.length := front_min sorted hp q hqQ
      omega
    · exact h
  refine ⟨qinv, sorted, ?_, vNotB, ?_, ?_, expand2⟩
  · intro p hp q hq
    have h1 := lenUB q hq
    have h2 := lenLB p (head?_mem hp)
    omega
  · intro p hp y n hr hn
    have hpQ := head?_mem hp
    have hpUB := lenUB p hpQ
    by_cases hc : n ≤ P.length
    · exact complete y n hr hc
    · have hn2 : n = P.length + 1 := by omega
      have hp2 : p.length = P.length + 1 := by omega
      obtain ⟨r, hrw, hrl⟩ := hr
      have hL1 : 1 ≤ P.length := walk_length_pos pwalk
      obtain ⟨q0, z, hreq, hq0w, hadj, hql⟩ := walk_unsnoc hrw (by omega)
      have hzreach : ReachN g a z P.length := ⟨q0, hq0w, by omega⟩
      have hzb : z ≠ b := by
        intro hzb
        rw [hzb] at hzreach
        have := distB P.length hzreach
        omega
      exact Or.inr (key p hp hp2 z hzreach hzb y hadj).1
  · intro p hp n hr
    have hd1 := distB n hr
    have hpQ := head?_mem hp
    have hpUB := lenUB p hpQ
    have hpLB := lenLB p hpQ
    by_cases hp2 : p.length = P.length + 1
    · by_cases hn2 : n = P.length + 1
      · exfalso
        obtain ⟨r, hrw, hrl⟩ := hr
        have hL1 : 1 ≤ P.length := walk_length_pos pwalk
        obtain ⟨q0, z, hreq, hq0w, hadj, hql⟩ := walk_unsnoc hrw (by omega)
        have hzreach : ReachN g a z P.length := ⟨q0, hq0w, by omega⟩
        have hzb : z ≠ b := by
          intro hzb
          rw [hzb] at hzreach
          have := distB P.length hzreach
          omega
        exact (key p hp hp2 z hzreach hzb b hadj).2 rfl
      · omega
    · omega

/-- Soundness of the inner neighbor scan: if it returns a path, that path is
a shortest walk from the source to the target; if it finishes without
returning, the BFS loop invariant holds for its output state. -/
theorem scanStep_sound (g : Graph) (a b : String) (P : List String) :
    ∀ ns V Q, ScanInv g a b P ns V Q →
      (∀ p V2 Q2, scanStep b P ns V Q = (some p, V2, Q2) →
        WalkFromTo g a b p ∧ ∀ r, WalkFromTo g a b r → p.length ≤ r.length) ∧
      (∀ V2 Q2, scanStep b P ns V Q = (none, V2, Q2) → BfsInv g a b Q2 V2) := by
  intro ns
  induction ns with
  | nil =>
    intro V Q hinv
    constructor
    · intro p V2 Q2 hstep
      simp [scanStep] at hstep
    · intro V2 Q2 hstep
      simp only [scanStep, Prod.mk.injEq] at hstep
      obtain ⟨-, hV, hQ⟩ := hstep
      rw [← hV, ← hQ]
      exact scanInv_to_bfsInv g a b P V Q hinv
  | cons n rest ih =>
    intro V Q hinv
    obtain ⟨pwalk, pNotB, pMin, qinv, sorted, lenLB, lenUB, vNotB, complete, distB, expand,
      nsSuffix⟩ := hinv
    obtain ⟨D, hD, hDmem⟩ := nsSuffix
    have hnNbr : n ∈ nbrs g (P.getLastD "") := by
      rw [hD]
      simp
    by_cases hnb : n = b
    · constructor
      · intro p V2 Q2 hstep
        simp only [scanStep, if_pos hnb, Prod.mk.injEq] at hstep
        obtain ⟨hp, -, -⟩ := hstep
        have hpe : p = P ++ [b] := by
          injection hp with hp2
          exact hp2.symm
        subst hpe
        have hadj : adjacentIn g (P.getLastD "") b := by
          rw [← hnb]
          exact hnNbr
        refine ⟨walk_snoc b pwalk hadj, ?_⟩
        intro r hr
        have := distB r.length ⟨r, hr, rfl⟩
        simp only [List.length_append, List.length_cons, List.length_nil]
        omega
      · intro V2 Q2 hstep
        simp [scanStep, if_pos hnb] at hstep
    · by_cases hnV : n ∈ V
      · have hinv2 : ScanInv g a b P rest V Q :=
          ⟨pwalk, pNotB, pMin, qinv, sorted, lenLB, lenUB, vNotB, complete, distB, expand,
            ⟨D ++ [n], by rw [hD]; simp, by
              intro w2 hw2
              rcases List.mem_append.mp hw2 with h | h
              · exact hDmem w2 h
              · have : w2 = n := by simpa using h
                rw [this]
                exact ⟨hnV, hnb⟩⟩⟩
        constructor
        · intro p V2 Q2 hstep
          simp only [scanStep, if_neg hnb, if_pos hnV] at hstep
          exact (ih V Q hinv2).1 p V2 Q2 hstep
        · intro V2 Q2 hstep
          simp only [scanStep, if_neg hnb, if_pos hnV] at hstep
          exact (ih V Q hinv2).2 V2 Q2 hstep
      · have hadjn : adjacentIn g (P.getLastD "") n := hnNbr
        have hnbs : ¬b = n := fun h2 => hnb h2.symm
        have hPn : WalkFromTo g a ((P ++ [n]).getLastD "") (P ++ [n]) := by
          rw [getLastD_concat_str]
          exact walk_snoc n pwalk hadjn
        have hinv2 : ScanInv g a b P rest (V ++ [n]) (Q ++ [P ++ [n]]) := by
          refine ⟨pwalk, pNotB, pMin, ?_, ?_, ?_, ?_, ?_, ?_, distB, ?_, ?_⟩
          · intro q hq
            rcases List.mem_append.mp hq with h | h
            · obtain ⟨w1, l1, n1, m1⟩ := qinv q h
              exact ⟨w1, List.mem_append_left _ l1, n1, m1⟩
            · have hq2 : q = P ++ [n] := by simpa using h
              subst hq2
              refine ⟨hPn, ?_, ?_, ?_⟩
              · rw [getLastD_concat_str]
                simp
              · intro hbm
                rcases List.mem_append.mp hbm with h2 | h2
                · exact pNotB h2
                · exact hnbs (by simpa using h2)
              · intro r hr
                rw [getLastD_concat_str] at hr
                by_contra hlen
                push_neg at hlen
                have hrle : r.length ≤ P.length := by
                  simp only [List.length_append, List.length_cons, List.length_nil] at hlen
                  omega
                rcases complete n r.length ⟨r, hr, rfl⟩ hrle with h2 | h2
                · exact hnb h2
                · exact hnV h2
          · rw [List.pairwise_append]
            refine ⟨sorted, by simp, ?_⟩
            intro q hq q2 hq2
            have hq3 : q2 = P ++ [n] := by simpa using hq2
            subst hq3
            have := lenUB q hq
            simp only [List.length_append, List.length_cons, List.length_nil]
            omega
          · intro q hq
            rcases List.mem_append.mp hq with h | h
            · exact lenLB q h
            · have hq2 : q = P ++ [n] := by simpa using h
              subst hq2
              simp only [List.length_append, List.length_cons, List.length_nil]
              omega
          · intro q hq
            rcases List.mem_append.mp hq with h | h
            · exact lenUB q h
            · have hq2 : q = P ++ [n] := by simpa using h
              subst hq2
              simp
          · intro x hx
            rcases List.mem_append.mp hx with h | h
            · exact vNotB x h
            · have : x = n := by simpa using h
              rw [this]
              exact hnb
          · intro y n2 hr hn2
            rcases complete y n2 hr hn2 with h | h
            · exact Or.inl h
            · exact Or.inr (List.mem_append_left _ h)
          · intro z hz
            rcases List.mem_append.mp hz with h | h
            · rcases expand z h with ⟨q, hqQ, hqz⟩ | h2 | h2
              · exact Or.inl ⟨q, List.mem_append_left _ hqQ, hqz⟩
              · refine Or.inr (Or.inl ?_)
                intro w2 hw2
                obtain ⟨hm, hb2⟩ := h2 w2 hw2
                exact ⟨List.mem_append_left _ hm, hb2⟩
              · exact Or.inr (Or.inr h2)
            · have hzn : z = n := by simpa using h
              refine Or.inl ⟨P ++ [n], List.mem_append_right _ (by simp), ?_⟩
              rw [getLastD_concat_str, hzn]
          · refine ⟨D ++ [n], by rw [hD]; simp, ?_⟩
            intro w2 hw2
            rcases List.mem_append.mp hw2 with h | h
            · obtain ⟨hm, hb2⟩ := hDmem w2 h
              exact ⟨List.mem_append_left _ hm, hb2⟩
            · have : w2 = n := by simpa using h
              rw [this]
              exact ⟨List.mem_append_right _ (by simp), hnb⟩
        constructor
        · intro p V2 Q2 hstep
          simp only [scanStep, if_neg hnb, if_neg hnV] at hstep
          exact (ih _ _ hinv2).1 p V2 Q2 hstep
        · intro V2 Q2 hstep
          simp only [scanStep, if_neg hnb, if_neg hnV] at hstep
          exact (ih _ _ hinv2).2 V2 Q2 hstep

/-- Soundness of the BFS `while` loop: whatever fuel it is run with, a
returned path is a shortest walk from the source to the target. -/
theorem bfsAux_sound (g : Graph) (a b : String) :
    ∀ fuel Q V, BfsInv g a b Q V →
      ∀ p, bfsAux g b fuel Q V = some p →
        WalkFromTo g a b p ∧ ∀ r, WalkFromTo g a b r → p.length ≤ r.length := by
  intro fuel
  induction fuel with
  | zero =>
    intro Q V hinv p hstep
    simp [bfsAux] at hstep
  | succ fuel ih =>
    intro Q V hinv p hstep
    cases Q with
    | nil => simp [bfsAux] at hstep
    | cons P rest =>
      have hq := hinv.qinv P (List.mem_cons_self _ _)
      have hscan : ScanInv g a b P (nbrs g (P.getLastD "")) V rest := by
        refine ⟨hq.walk, hq.notB, hq.minimal, ?_, ?_, ?_, ?_, hinv.vNotB, ?_, ?_, ?_,
          ⟨[], rfl, by simp⟩⟩
        · intro q hq2
          exact hinv.qinv q (List.mem_cons_of_mem _ hq2)
        · exact (List.pairwise_cons.mp hinv.sorted).2
        · intro q hq2
          exact (List.pairwise_cons.mp hinv.sorted).1 q hq2
        · intro q hq2
          exact hinv.bound P rfl q (List.mem_cons_of_mem _ hq2)
        · intro y n hr hn
          exact hinv.complete P rfl y n hr hn
        · intro n hr
          exact hinv.distB P rfl n hr
        · intro z hz
          rcases hinv.expand z hz with ⟨q, hq2, hq3⟩ | h
          · rcases List.mem_cons.mp hq2 with rfl | hq4
            · exact Or.inr (Or.inr hq3.symm)
            · exact Or.inl ⟨q, hq4, hq3⟩
          · exact Or.inr (Or.inl h)
      simp only [bfsAux] at hstep
      cases hsc : scanStep b P (nbrs g (P.getLastD "")) V rest with
      | mk res vq =>
        obtain ⟨v2, q2⟩ := vq
        rw [hsc] at hstep
        cases res with
        | some p2 =>
          simp only at hstep
          have hp2 : p2 = p := by injection hstep
          rw [← hp2]
          exact (scanStep_sound g a b P _ _ _ hscan).1 p2 v2 q2 hsc
        | none =>
          exact ih q2 v2 ((scanStep_sound g a b P _ _ _ hscan).2 v2 q2 hsc) p hstep

/-- The BFS loop invariant holds at loop entry. -/
theorem bfsInv_init (g : Graph) (a b : String) (hab : a ≠ b) : BfsInv g a b [[a]] [a] := by
  have hwalk : WalkFromTo g a a [a] := ⟨rfl, rfl, List.chain'_singleton a⟩
  refine ⟨?_, ?_, ?_, ?_, ?_, ?_, ?_⟩
  · intro q hq
    have hq2 : q = [a] := by simpa using hq
    subst hq2
    refine ⟨hwalk, by simp, ?_, ?_⟩
    · intro hb
      have : b = a := by simpa using hb
      exact hab this.symm
    · intro r hr
      have := walk_length_pos hr
      simp only [List.length_cons, List.length_nil]
      omega
  · simp
  · intro p hp q hq
    have hp2 : p = [a] := (by simpa using hp : [a] = p).symm
    have hq2 : q = [a] := by simpa using hq
    rw [hp2, hq2]
    simp
  · intro x hx
    have : x = a := by simpa using hx
    rw [this]
    exact hab
  · intro p hp y n hr hn
    have hp2 : p = [a] := (by simpa using hp : [a] = p).symm
    rw [hp2] at hn
    simp only [List.length_cons, List.length_nil] at hn
    have h1 := reachN_pos hr
    have hn1 : n = 1 := by omega
    rw [hn1] at hr
    have := reachN_one hr
    rw [this]
    simp
  · intro p hp n hr
    have hp2 : p = [a] := (by simpa using hp : [a] = p).symm
    rw [hp2]
    have h1 := reachN_pos hr
    by_cases h2 : n = 1
    · rw [h2] at hr
      exact absurd (reachN_one hr) (fun h3 => hab h3.symm)
    · simp only [List.length_cons, List.length_nil]
      omega
  · intro z hz
    have : z = a := by simpa using hz
    exact Or.inl ⟨[a], by simp, by rw [this]; rfl⟩

/-- Whenever `getSimilarityPath` returns a path on distinct normalized words,
that path is a shortest walk between them (soundness + minimality of the
BFS). -/
theorem getSimilarityPath_minimal (g : Graph) (wa wb : String)
    (hna : norm wa = wa) (hnb : norm wb = wb) (hab : wa ≠ wb) :
    ∀ p, getSimilarityPath wa wb g = some p →
      WalkFromTo g wa wb p ∧ ∀ r, WalkFromTo g wa wb r → p.length ≤ r.length := by
  intro p hp
  unfold getSimilarityPath at hp
  rw [hna, hnb] at hp
  by_cases h0 : wa = "" ∨ wb = ""
  · rw [if_pos h0] at hp
    exact absurd hp (by simp)
  · rw [if_neg h0, if_neg hab] at hp
    by_cases h1 : (lookupNbrs g wa).isNone ∨ (lookupNbrs g wb).isNone
    · rw [if_pos h1] at hp
      exact absurd hp (by simp)
    · rw [if_neg h1] at hp
      exact bfsAux_sound g wa wb _ _ _ (bfsInv_init g wa wb hab) p hp

/-- C3: for every graph and pair of distinct normalized words present in the
graph, a path returned by `getSimilarityPath` is a walk from the first word
to the second of minimal length; in particular, on the hand-built graph
`{a:[b], b:[a,c], c:[b]}` the function returns `[a,b,c]` (length 3). -/
theorem claim3_bfs_minimality (g : Graph) (wa wb : String)
    (hna : norm wa = wa) (hnb : norm wb = wb) (hab : wa ≠ wb)
    (_hpa : (lookupNbrs g wa).isSome) (_hpb : (lookupNbrs g wb).isSome) :
    (∀ p, getSimilarityPath wa wb g = some p →
        WalkFromTo g wa wb p ∧ ∀ r, WalkFromTo g wa wb r → p.length ≤ r.length) ∧
      getSimilarityPath "a" "c" abcGraph = some ["a", "b", "c"] :=
  ⟨getSimilarityPath_minimal g wa wb hna hnb hab, by decide⟩

/-- C3 witness: in the hand-built graph, the returned path `[a,b,c]` is a
walk from a to c and no shorter walk exists. -/
theorem claim3_witness :
    WalkFromTo abcGraph "a" "c" ["a", "b", "c"] ∧
      ∀ r, WalkFromTo abcGraph "a" "c" r → 3 ≤ r.length := by
  have h := (claim3_bfs_minimality abcGraph "a" "c" (by decide) (by decide) (by decide)
    (by decide) (by decide)).1 ["a", "b", "c"] (by decide)
  exact ⟨h.1, fun r hr => h.2 r hr⟩

/-! ## Equivalence of the two engine copies (claim C10) -/

theorem norm_of_isNorm {s : String} (h : IsNorm s) : norm s = s := by
  unfold norm
  rw [h.1, h.2.1]

theorem lowTrim_of_isNorm {s : String} (h : IsNorm s) : jsTrim (jsToLower s) = s := by
  rw [h.2.1, h.1]

theorem map_norm_of {l : List String} (h : ∀ s ∈ l, IsNorm s) : l.map norm = l := by
  induction l with
  | nil => rfl
  | cons a t ih =>
    simp only [List.map_cons]
    rw [norm_of_isNorm (h a (by simp)), ih fun s hs => h s (by simp [hs])]

theorem map_lower_of {l : List String} (h : ∀ s ∈ l, IsNorm s) : l.map jsToLower = l := by
  induction l with
  | nil => rfl
  | cons a t ih =>
    simp only [List.map_cons]
    rw [(h a (by simp)).2.1, ih fun s hs => h s (by simp [hs])]

theorem find?_word_eq (terms : List Term) (w : String) (h : ∀ t ∈ terms, TermNormed t) :
    terms.find? (fun t => norm t.word == w) = terms.find? (fun t => t.word == w) :=
  find?_congr_mem terms _ _ fun t ht => by rw [norm_of_isNorm (h t ht).1]

theorem addSyn_eq (w : String) (g : Graph) (syn : String) (h : IsNorm syn) :
    addSyn w g syn = P7.addSyn w g syn := by
  simp only [addSyn, P7.addSyn]
  rw [norm_of_isNorm h, if_neg h.2.2]

theorem addTermEdges_eq (g : Graph) (t : Term) (h : TermNormed t) :
    addTermEdges g t = P7.addTermEdges g t := by
  simp only [addTermEdges, P7.addTermEdges]
  rw [norm_of_isNorm h.1, if_neg h.1.2.2]
  exact foldl_congr_mem t.synonyms _ _ _ fun syn hs g2 => addSyn_eq t.word g2 syn (h.2.1 syn hs)

theorem buildGraph_eq (terms : List Term) (h : ∀ t ∈ terms, TermNormed t) :
    buildThesaurusGraph terms = P7.buildThesaurusGraph terms := by
  simp only [buildThesaurusGraph, P7.buildThesaurusGraph]
  exact foldl_congr_mem terms _ _ [] fun t ht g => addTermEdges_eq g t (h t ht)

theorem getSimilarityPath_eq (wa wb : String) (g : Graph) (ha : IsNorm wa) (hb : IsNorm wb) :
    getSimilarityPath wa wb g = P7.getSimilarityPath wa wb g := by
  simp only [getSimilarityPath, P7.getSimilarityPath]
  rw [norm_of_isNorm ha, norm_of_isNorm hb, if_neg (by simp [ha.2.2, hb.2.2])]

theorem simResultFor_eq (w : String) (terms : List Term) (t : Term)
    (h : ∀ t2 ∈ terms, TermNormed t2) (ht : TermNormed t) :
    simResultFor w (terms.find? (fun t2 => norm t2.word == w))
      (((terms.find? (fun t2 => norm t2.word == w)).map
        (fun st => st.synonyms.map norm)).getD []) t = P7.simResultFor w terms t := by
  simp only [simResultFor, P7.simResultFor]
  rw [norm_of_isNorm ht.1, map_norm_of ht.2.1, map_norm_of ht.2.2,
      map_lower_of ht.2.1, map_lower_of ht.2.2, if_neg ht.1.2.2, find?_word_eq terms w h]
  cases hfind : terms.find? (fun t2 => t2.word == w) with
  | none => rfl
  | some st =>
    have hst : TermNormed st := h st (List.mem_of_find?_eq_some hfind)
    simp only [Option.map_some', Option.getD_some]
    rw [map_norm_of hst.2.1, map_lower_of hst.2.1]

theorem findSimilarities_eq (w : String) (terms : List Term)
    (hw : IsNorm w) (h : ∀ t ∈ terms, TermNormed t) :
    findSimilarities w terms = P7.findSimilarities w terms := by
  simp only [findSimilarities, P7.findSimilarities]
  rw [norm_of_isNorm hw, hw.2.1, if_neg hw.2.2]
  exact congrArg sortResults
    (filterMap_congr_mem terms _ _ fun t ht => simResultFor_eq w terms t h (h t ht))

theorem baseScore_eq (guess target : String) (tt : Term) (gt2 : Option Term)
    (htt : TermNormed tt) (hgt : ∀ t2, gt2 = some t2 → TermNormed t2) :
    baseScore guess target tt gt2 = P7.baseScore guess target tt gt2 := by
  simp only [baseScore, P7.baseScore]
  rw [map_norm_of htt.2.1, map_norm_of htt.2.2, map_lower_of htt.2.1, map_lower_of htt.2.2]
  cases gt2 with
  | none => rfl
  | some gt =>
    have hg := hgt gt rfl
    dsimp only
    rw [map_norm_of hg.2.1, map_norm_of hg.2.2, map_lower_of hg.2.1, map_lower_of hg.2.2]

theorem feedbackFor_eq_of (s : Int) (h : s < 40 ∨ 60 ≤ s) :
    feedbackFor s = P7.feedbackFor s := by
  unfold feedbackFor P7.feedbackFor
  split_ifs <;> first | rfl | (exfalso; omega)

theorem scoreGuess_eq (gw tw : String) (terms : List Term)
    (hg : IsNorm gw) (htw : IsNorm tw) (h : ∀ t ∈ terms, TermNormed t) :
    (P7.scoreGuess gw tw terms).score = (scoreGuess gw tw terms).score ∧
    (P7.scoreGuess gw tw terms).connections = (scoreGuess gw tw terms).connections ∧
    ((scoreGuess gw tw terms).score < 40 ∨ 60 ≤ (scoreGuess gw tw terms).score →
      (P7.scoreGuess gw tw terms).feedback = (scoreGuess gw tw terms).feedback) := by
  simp only [scoreGuess, P7.scoreGuess]
  rw [norm_of_isNorm hg, norm_of_isNorm htw, lowTrim_of_isNorm hg, lowTrim_of_isNorm htw,
      find?_word_eq terms tw h]
  by_cases heq : gw = tw
  · simp [heq]
  · simp only [if_neg heq]
    cases hfind : terms.find? (fun t => t.word == tw) with
    | none => exact ⟨rfl, rfl, fun _ => rfl⟩
    | some targetTerm =>
      have htt : TermNormed targetTerm := h _ (List.mem_of_find?_eq_some hfind)
      dsimp only
      rw [find?_word_eq terms gw h,
          baseScore_eq gw tw targetTerm _ htt
            (fun t2 ht2 => h t2 (List.mem_of_find?_eq_some ht2)),
          buildGraph_eq terms h, getSimilarityPath_eq gw tw _ hg htw]
      cases hpath : P7.getSimilarityPath gw tw (P7.buildThesaurusGraph terms) with
      | none =>
        refine ⟨rfl, rfl, fun hs => ?_⟩
        dsimp only at hs ⊢
        exact (feedbackFor_eq_of _ hs).symm
      | some path =>
        refine ⟨rfl, rfl, fun hs => ?_⟩
        dsimp only at hs ⊢
        exact (feedbackFor_eq_of _ hs).symm

/-- C10 (counterexample): on a term list satisfying all the claimed
normalization preconditions, the two scoreGuess copies return different
results — the duplicate's 40-59 feedback string carries a double-encoded em
dash, so "identical results" fails. -/
theorem claim10_counterexample :
    (∀ t ∈ abcTerms, TermNormed t) ∧
      IsNorm "a" ∧ IsNorm "c" ∧
      P7.scoreGuess "a" "c" abcTerms ≠ scoreGuess "a" "c" abcTerms ∧
      (P7.scoreGuess "a" "c" abcTerms).feedback ≠ (scoreGuess "a" "c" abcTerms).feedback ∧
      (P7.scoreGuess "a" "c" abcTerms).score = (scoreGuess "a" "c" abcTerms).score := by
  refine ⟨by decide, by decide, by decide, by decide, by decide, by decide⟩

/-- C10 (amended): for term lists whose words, synonyms and antonyms are
non-empty, trimmed, lower-case strings, and normalized arguments, the engine
and its unnamed duplicate agree exactly on `buildThesaurusGraph`,
`findSimilarities` and `getSimilarityPath`, and on the score and connections
of `scoreGuess`; the `scoreGuess` feedback strings also agree except when
the score lands in [40, 60), where the copies differ only by the duplicate's
mis-encoded em dash. -/
theorem claim10_engine_equivalence (terms : List Term) (w wa wb gw tw : String) (g : Graph)
    (hterms : ∀ t ∈ terms, TermNormed t) (hw : IsNorm w) (hwa : IsNorm wa)
    (hwb : IsNorm wb) (hgw : IsNorm gw) (htw : IsNorm tw) :
    P7.buildThesaurusGraph terms = buildThesaurusGraph terms ∧
    P7.findSimilarities w terms = findSimilarities w terms ∧
    P7.getSimilarityPath wa wb g = getSimilarityPath wa wb g ∧
    (P7.scoreGuess gw tw terms).score = (scoreGuess gw tw terms).score ∧
    (P7.scoreGuess gw tw terms).connections = (scoreGuess gw tw terms).connections ∧
    ((scoreGuess gw tw terms).score < 40 ∨ 60 ≤ (scoreGuess gw tw terms).score →
      (P7.scoreGuess gw tw terms).feedback = (scoreGuess gw tw terms).feedback) := by
  obtain ⟨h1, h2, h3⟩ := scoreGuess_eq gw tw terms hgw htw hterms
  exact ⟨(buildGraph_eq terms hterms).symm, (findSimilarities_eq w terms hw hterms).symm,
    (getSimilarityPath_eq wa wb g hwa hwb).symm, h1, h2, h3⟩

/-- C10 witness: the amended equivalence instantiated on the abc term list
with a high-scoring guess (a is a direct synonym of b, score 85 ≥ 60, so
even the feedback strings agree). -/
theorem claim10_witness :
    P7.buildThesaurusGraph abcTerms = buildThesaurusGraph abcTerms ∧
    P7.findSimilarities "a" abcTerms = findSimilarities "a" abcTerms ∧
    P7.getSimilarityPath "a" "c" abcGraph = getSimilarityPath "a" "c" abcGraph ∧
    (P7.scoreGuess "a" "b" abcTerms).score = (scoreGuess "a" "b" abcTerms).score ∧
    (P7.scoreGuess "a" "b" abcTerms).connections = (scoreGuess "a" "b" abcTerms).connections ∧
    ((scoreGuess "a" "b" abcTerms).score < 40 ∨ 60 ≤ (scoreGuess "a" "b" abcTerms).score →
      (P7.scoreGuess "a" "b" abcTerms).feedback = (scoreGuess "a" "b" abcTerms).feedback) :=
  claim10_engine_equivalence abcTerms "a" "a" "c" "a" "b" abcGraph
    (by decide) (by decide) (by decide) (by decide) (by decide) (by decide)

end ToastyMills
